import Mathlib

/-!
Verification of the SeferBishul recipe-book document engine.

The development shallowly embeds the document structuring engine of the
repository: the line classifier and section segmenter (`parse_heading`,
`parse_line`, `parse_sections` of `parser.py` / `main.py`), the stack-based
section tree builder (`nest_sections`), the heading-to-renderer resolution
(`heading_to_renderer` of `main.py`), the tree renderer
(`render_nested_sections`) and the flat recipe extractor
(`parse_recipe_text` of `main.py`).

Modelling conventions:

* Python exceptions (failed `assert`, `IndexError` from `stack[-1]` or
  `sections[i]`, a `TypeError`) are modelled by `Option`: `none` means the
  Python code raises.
* Python `str.splitlines` is modelled over the full set of line-break
  characters it recognises; `str.strip` is modelled on the ASCII whitespace
  characters (the documents of interest contain no exotic Unicode spaces).
* `nest_sections` mutates Python list objects: `attrs.evolve(section)` copies
  the record but shares the mutable `children` list with the original. The
  heap of `children` list objects is modelled explicitly as a `store`:
  input section number `i` owns list object number `i` (each section built by
  `Section.from_lines` holds a fresh empty list), a `SectionObj` is a section
  value holding a reference `ref` to its children list, and `attrs.evolve`
  keeps the `ref` unchanged.  After the run, `store` entry `i` is the content
  of input section `i`'s children list.
-/

namespace SeferBishul

/-- A heading line: marker count (`level`) and trimmed title text. -/
structure Heading where
  text : String
  level : Nat
deriving DecidableEq, Repr, Inhabited

/-- A classified line: either a plain string or a `Heading`. -/
inductive Line where
  | str (s : String)
  | heading (h : Heading)
deriving DecidableEq, Repr

/-- A flat section as built by the segmenter: a heading plus the plain lines
following it.  (The Python `Section` also holds a `children` list; for the
flat sections fed to `nest_sections` that list is a fresh empty list object,
which the nesting model below tracks by index in its `store`.) -/
structure Section where
  heading : Heading
  content : List String
deriving DecidableEq, Repr, Inhabited

/-- The ASCII whitespace characters stripped by Python `str.strip()`. -/
def isPySpace (c : Char) : Bool :=
  c == ' ' || c == '\t' || c == '\n' || c == '\r' || c == '\x0B' || c == '\x0C'

/-- Python `str.strip()` on a character list: drop whitespace at both ends. -/
def pyStrip (l : List Char) : List Char :=
  ((l.dropWhile isPySpace).reverse.dropWhile isPySpace).reverse

/-- `parse_heading` of `parser.py`: `re.match(r"(#+)(.*)", line)`.  A maximal
leading run of `#` gives the level; the rest of the line up to a newline
(`.` does not match `\n`), stripped, gives the text.  `none` when the line
does not start with `#`. -/
def parse_heading (line : String) : Option Heading :=
  let hashes := line.data.takeWhile (fun c => c == '#')
  if hashes.length = 0 then none
  else
    some ⟨String.mk (pyStrip ((line.data.drop hashes.length).takeWhile (fun c => c != '\n'))),
          hashes.length⟩

/-- `parse_line`: a line is a `Heading` when `parse_heading` matches,
otherwise the plain string itself. -/
def parse_line (line : String) : Line :=
  match parse_heading line with
  | some h => Line.heading h
  | none => Line.str line

/-- The line-break characters recognised by Python `str.splitlines`. -/
def isLineBreak (c : Char) : Bool :=
  c == '\n' || c == '\r' || c == '\x0B' || c == '\x0C' ||
  c == '\x1C' || c == '\x1D' || c == '\x1E' || c == '\x85' ||
  c == '\u2028' || c == '\u2029'

/-- Worker for `splitlines`: `buf` holds the current line reversed. -/
def splitlinesGo : List Char → List Char → List String
  | [], buf => if buf.isEmpty then [] else [String.mk buf.reverse]
  | '\r' :: '\n' :: rest, buf => String.mk buf.reverse :: splitlinesGo rest []
  | c :: rest, buf =>
    if isLineBreak c then String.mk buf.reverse :: splitlinesGo rest []
    else splitlinesGo rest (c :: buf)

/-- Python `str.splitlines()`: split at line breaks, `\r\n` counting as one
break, with no trailing empty line for a trailing break. -/
def splitlines (s : String) : List String := splitlinesGo s.data []

/-- Worker for `split_before`, transcribing the `more_itertools.split_before`
loop: accumulate a buffer, yield it just before each element satisfying
`pred`, and yield the final non-empty buffer. -/
def splitBeforeGo (pred : Line → Bool) : List Line → List Line → List (List Line)
  | buf, [] => if buf.isEmpty then [] else [buf]
  | buf, x :: xs =>
    if pred x && !buf.isEmpty then buf :: splitBeforeGo pred [x] xs
    else splitBeforeGo pred (buf ++ [x]) xs

/-- `more_itertools.split_before`: group a sequence, starting a new group
immediately before every element satisfying `pred`. -/
def split_before (l : List Line) (pred : Line → Bool) : List (List Line) :=
  splitBeforeGo pred [] l

/-- Whether a classified line is a heading (the `isinstance(s, Heading)`
predicate passed to `split_before`). -/
def isHeading : Line → Bool
  | Line.heading _ => true
  | Line.str _ => false

/-- The plain strings of a group tail.  In `parse_sections` a group never
contains a heading after its first element (`split_before` cuts in front of
every heading), so on every reachable input this is just the list of raw
lines; a heading in the tail yields `none`. -/
def contentStrings : List Line → Option (List String)
  | [] => some []
  | Line.str s :: rest => (contentStrings rest).map (fun c => s :: c)
  | Line.heading _ :: _ => none

/-- `Section.from_lines`: `heading, *content = lines` followed by
`assert isinstance(heading, Heading)`.  `none` models the failed assert. -/
def Section.from_lines (lines : List Line) : Option Section :=
  match lines with
  | Line.heading h :: rest => (contentStrings rest).map (fun c => ⟨h, c⟩)
  | _ => none

/-- `list(map(Section.from_lines, section_lines))`: the first failing group
raises, modelled by `none`. -/
def sectionsFromGroups : List (List Line) → Option (List Section)
  | [] => some []
  | g :: gs =>
    match Section.from_lines g, sectionsFromGroups gs with
    | some s, some rest => some (s :: rest)
    | _, _ => none

/-- `parse_sections` of `parser.py`: classify each line of the document,
group before every heading, and build a flat section per group. -/
def parse_sections (recipe : String) : Option (List Section) :=
  sectionsFromGroups (split_before ((splitlines recipe).map parse_line) isHeading)

/-- A runtime section object inside `nest_sections`: the record data plus the
reference `ref` of the mutable `children` list object it holds.  The input
section at index `i` holds list object `i`; `attrs.evolve` (the `copy` helper
of `nest_sections`) copies the record but passes the same `children` list to
the constructor, so a copy keeps the same `ref`. -/
structure SectionObj where
  heading : Heading
  content : List String
  ref : Nat
deriving DecidableEq, Repr, Inhabited

/-- The runtime object of input section number `i` (out-of-range indices give
the default section; they are never used). -/
def sectionObjAt (sections : List Section) (i : Nat) : SectionObj :=
  ⟨(sections.getD i default).heading, (sections.getD i default).content, i⟩

/-- The heading level of input section number `i`. -/
def lvlAt (sections : List Section) (i : Nat) : Nat :=
  (sections.getD i default).heading.level

/-- The pop loop of `nest_sections`:
`while stack and section.heading.level <= stack[-1].heading.level: stack.pop()`.
The list head is the Python `stack[-1]`. -/
def popWhile (level : Nat) (stack : List SectionObj) : List SectionObj :=
  stack.dropWhile (fun p => decide (level ≤ p.heading.level))

/-- `stack[-1].children.append(copy(section))`: append `q` to list object `r`
of the store. -/
def bumpStore (store : List (List SectionObj)) (r : Nat) (q : SectionObj) :
    List (List SectionObj) :=
  store.set r (store.getD r [] ++ [q])

/-- The `for section in sections[1:]` loop of `nest_sections`, over the
indices of the remaining sections.  Popping the whole stack makes the Python
`stack[-1]` raise `IndexError`, modelled by `none`; otherwise the copy of the
current section is appended to the children list of the top (the copy shares
the original's list object, hence `sectionObjAt sections j` both as the
appended child and as the value pushed on the stack). -/
def nestLoop (sections : List Section) :
    List Nat → List SectionObj → List (List SectionObj) →
    Option (List (List SectionObj))
  | [], _stack, store => some store
  | j :: rest, stack, store =>
    match popWhile (lvlAt sections j) stack with
    | [] => none
    | top :: stack' =>
      nestLoop sections rest (sectionObjAt sections j :: top :: stack')
        (bumpStore store top.ref (sectionObjAt sections j))

/-- The value returned by `nest_sections`: the `toplevel` object and the
final contents of every `children` list object. -/
structure NestResult where
  toplevel : SectionObj
  store : List (List SectionObj)
deriving DecidableEq, Repr

/-- `nest_sections` of `parser.py`.  The two asserts (`sections` non-empty,
`sections[0].heading.level == 1`) are `none` on failure; `toplevel` is
`copy(sections[0])`, sharing the children list object of `sections[0]`
(reference `0`); every list object starts empty. -/
def nest_sections (sections : List Section) : Option NestResult :=
  match sections with
  | [] => none
  | s0 :: _ =>
    if s0.heading.level = 1 then
      (nestLoop sections (List.range' 1 (sections.length - 1))
          [sectionObjAt sections 0]
          (List.replicate sections.length [])).map
        (fun store => ⟨sectionObjAt sections 0, store⟩)
    else none

/-- The parse-and-build pipeline: `nest_sections(parse_sections(doc))` as used
by `parse_recipe_text` of `parser.py`.  `none` whenever either stage raises. -/
def parse_and_nest (doc : String) : Option NestResult :=
  (parse_sections doc).bind nest_sections

/-- Pre-order flattening of the object graph rooted at `p`: the node, then the
flattening of each child in order.  Children are looked up through the store;
the guard `p.ref < c.ref`, true for every object `nest_sections` ever stores
(children are always later sections than their parent), serves as the
termination measure. -/
def flattenObjs (store : List (List SectionObj)) (p : SectionObj) :
    List SectionObj :=
  p :: ((store.getD p.ref []).attach.map
    (fun c => if h : p.ref < c.val.ref then flattenObjs store c.val else [])).flatten
termination_by store.length - p.ref
decreasing_by
  have hmem : (c : SectionObj) ∈ store.getD p.ref [] := c.property
  have hlt : p.ref < store.length := by
    by_contra hge
    exact List.ne_nil_of_mem hmem (List.getD_eq_default _ _ (le_of_not_lt hge))
  omega

/-- The sequence of headings of the built tree, in pre-order. -/
def flattenHeadings (res : NestResult) : List Heading :=
  (flattenObjs res.store res.toplevel).map (fun p => p.heading)

/-- The objects of sections `a` to `k` inclusive, in order. -/
def sliceObjs (sections : List Section) (a k : Nat) : List SectionObj :=
  (List.range' a (k + 1 - a)).map (sectionObjAt sections)

/-- The nearest index before `j` whose section has a strictly smaller heading
level, as the spec phrases it: the last `i < j` with
`level i < level j`. -/
def nearestSmaller (sections : List Section) (j : Nat) : Option Nat :=
  ((List.range j).filter (fun i => decide (lvlAt sections i < lvlAt sections j))).getLast?

/-- Section number `j`'s object is in the children list object number `i`. -/
def childInStore (store : List (List SectionObj)) (i j : Nat) : Prop :=
  ∃ q ∈ store.getD i [], q.ref = j

/-- Object `j` lies strictly below object `i` in the built object graph. -/
def descendantInStore (store : List (List SectionObj)) (i j : Nat) : Prop :=
  Relation.TransGen (childInStore store) i j

/-- The loop invariant of `nest_sections` after the sections up to index `k`
have been processed.  The stack (head = top) carries the objects of the
currently open sections: their indices strictly decrease towards the bottom
(which is always section `0`), their levels strictly increase towards the
top (with every skipped index in a gap at least as deep as the upper end of
the gap), consecutive stack entries are linked by the last-child relation of
the store, each stack entry's subtree flattens to the contiguous run of
sections from its own index to `k`, and every processed section sits in the
children list of its nearest preceding strictly-shallower section. -/
structure NestInv (sections : List Section) (k : Nat) (stack : List SectionObj)
    (store : List (List SectionObj)) : Prop where
  storeLen : store.length = sections.length
  kLt : k < sections.length
  topEq : stack.head? = some (sectionObjAt sections k)
  bottomEq : stack.getLast? = some (sectionObjAt sections 0)
  stackObjs : ∀ p ∈ stack, p = sectionObjAt sections p.ref ∧ p.ref ≤ k
  chainGap : List.Chain'
    (fun p q => q.ref < p.ref ∧ q.heading.level < p.heading.level ∧
      ∀ x, q.ref < x → x < p.ref → p.heading.level ≤ lvlAt sections x) stack
  spine : List.Chain' (fun p q => (store.getD q.ref []).getLast? = some p) stack
  storeElems : ∀ i, ∀ q ∈ store.getD i [], q = sectionObjAt sections q.ref ∧
    i < q.ref ∧ 1 ≤ q.ref ∧ q.ref ≤ k
  storeHi : ∀ i, k < i → store.getD i [] = []
  flatEq : ∀ p ∈ stack, flattenObjs store p = sliceObjs sections p.ref k
  memNearest : ∀ j, 1 ≤ j → j ≤ k → ∃ i, nearestSmaller sections j = some i ∧
    childInStore store i j

/-- Decidable test used by the C6 claim: is the first classified line a
`Heading` of level 1? -/
def firstIsLevel1Heading (lines : List Line) : Bool :=
  match lines.head? with
  | some (Line.heading h) => h.level == 1
  | _ => false

/-- The three renderer functions of `main.py` that `render_nested_sections`
dispatches between; the tag stands for the Python function object. -/
inductive RendererTag where
  | render_toplevel
  | render_ingredients
  | render_prep
deriving DecidableEq, Repr

/-- A key of a Python `dict`, as relevant here: either a string or a
`Heading`.  Python equality across the two kinds is always false, which the
derived equality gives as well (distinct constructors). -/
inductive DictKey where
  | str (s : String)
  | heading (h : Heading)
deriving DecidableEq, Repr

/-- `_HEADING_TO_RENDER_MAPPING` of `main.py`, inverted from
`_RENDER_MAPPING`: its keys are the recognised heading *texts* (strings). -/
def HEADING_TO_RENDER_MAPPING : List (DictKey × RendererTag) :=
  [(DictKey.str "חומרים", RendererTag.render_ingredients),
   (DictKey.str "הוראות", RendererTag.render_prep),
   (DictKey.str "הוראות הכנה", RendererTag.render_prep)]

/-- Python `dict.get(k)`: the value of the first (only) entry whose key
equals `k`, or `None`. -/
def dictGet (d : List (DictKey × RendererTag)) (k : DictKey) : Option RendererTag :=
  (d.find? (fun e => e.1 == k)).map (fun e => e.2)

/-- `heading_to_renderer` of `main.py`: `None` for levels other than 2,
otherwise `_HEADING_TO_RENDER_MAPPING.get(heading)` — the lookup key is the
`Heading` object itself, not its text. -/
def heading_to_renderer (heading : Heading) : Option RendererTag :=
  if heading.level ≠ 2 then none
  else dictGet HEADING_TO_RENDER_MAPPING (DictKey.heading heading)

/-- `more_itertools.split_at`: cut a list at every element satisfying `pred`,
dropping the separators; `n` separators give `n + 1` groups, empty groups
included for leading, trailing or adjacent separators. -/
def split_at (l : List String) (pred : String → Bool) : List (List String) :=
  match l with
  | [] => [[]]
  | x :: xs =>
    if pred x then [] :: split_at xs pred
    else
      match split_at xs pred with
      | g :: gs => (x :: g) :: gs
      | [] => [[x]]

/-- The `steps` list `render_prep` of `main.py` passes to its template:
`"\n".join(lines) for lines in more_itertools.split_at(content, lambda s: not s)`. -/
def render_prep_steps (content : List String) : List String :=
  (split_at content (fun s => s == "")).map (fun lines => String.intercalate "\n" lines)

/-- What each renderer passes to its (external, opaque) template: the heading
plus the role-specific payload. -/
inductive Fragment where
  | toplevel (heading : Heading) (description : String)
  | ingredients (heading : Heading) (items : List String)
  | prep (heading : Heading) (steps : List String)
deriving DecidableEq, Repr

/-- The heading a fragment was rendered with. -/
def Fragment.heading : Fragment → Heading
  | Fragment.toplevel h _ => h
  | Fragment.ingredients h _ => h
  | Fragment.prep h _ => h

/-- A materialised section tree, as consumed by `render_nested_sections`:
heading, content, and child subtrees. -/
inductive SectionTree where
  | mk (heading : Heading) (content : List String) (children : List SectionTree)

/-- The heading of a tree node. -/
def SectionTree.heading : SectionTree → Heading
  | SectionTree.mk h _ _ => h

/-- The content lines of a tree node. -/
def SectionTree.content : SectionTree → List String
  | SectionTree.mk _ c _ => c

/-- The child subtrees of a tree node. -/
def SectionTree.children : SectionTree → List SectionTree
  | SectionTree.mk _ _ cs => cs

/-- The body of `render_toplevel` / `render_ingredients` / `render_prep` of
`main.py`, with the template call left abstract: `render_toplevel` joins the
non-empty content lines (`filter(bool, ...)`) into a description,
`render_ingredients` keeps the non-empty content lines as items, and
`render_prep` builds the blank-line-separated step list. -/
def callRenderer (r : RendererTag) (s : SectionTree) : Fragment :=
  match r with
  | RendererTag.render_toplevel =>
    Fragment.toplevel s.heading
      (String.intercalate "\n" (s.content.filter (fun l => l != "")))
  | RendererTag.render_ingredients =>
    Fragment.ingredients s.heading (s.content.filter (fun l => l != ""))
  | RendererTag.render_prep =>
    Fragment.prep s.heading (render_prep_steps s.content)

/-- The `while stack` loop of `render_nested_sections`: pop the last pushed
entry (the list head models the end of the Python list), resolve the
renderer (`heading_to_renderer(...) or renderer`), emit one fragment, and
push the children in order — so the child pushed last (the rightmost) is
popped first. -/
def renderLoop : List (SectionTree × RendererTag) → List Fragment → List Fragment
  | [], acc => acc
  | (s, r) :: rest, acc =>
    let r' := (heading_to_renderer s.heading).getD r
    renderLoop ((s.children.map (fun c => (c, r'))).reverse ++ rest)
      (acc ++ [callRenderer r' s])
termination_by stack _ => (stack.map (fun p => sizeOf p.1)).sum
decreasing_by
  have sumLt : ∀ cs : List SectionTree, (cs.map (fun c => sizeOf c)).sum < sizeOf cs := by
    intro cs
    induction cs with
    | nil => simp
    | cons a l ih => simp only [List.map_cons, List.sum_cons, List.cons.sizeOf_spec]; omega
  simp only [List.map_append, List.map_reverse, List.map_map, List.sum_append,
    List.sum_reverse, List.map_cons, List.sum_cons]
  have hlt : ((s.children.map (fun c => (c, (heading_to_renderer s.heading).getD r))).map
      (fun p => sizeOf p.1)).sum < sizeOf s := by
    rw [List.map_map]
    have : ((fun p => sizeOf p.1) ∘ (fun c => (c, (heading_to_renderer s.heading).getD r)))
        = fun c : SectionTree => sizeOf c := rfl
    rw [this]
    cases s with
    | mk h c cs =>
      have := sumLt cs
      simp only [SectionTree.children, SectionTree.mk.sizeOf_spec]
      omega
  simp only [List.map_map] at hlt ⊢
  omega

/-- `render_nested_sections` of `main.py`, with the fragments kept as a list
(the Python joins them with a newline): start from the root with
`render_toplevel` as the inherited renderer. -/
def render_nested_sections (toplevel : SectionTree) : List Fragment :=
  renderLoop [(toplevel, RendererTag.render_toplevel)] []

/-- The behaviour of `render_nested_sections` as a recursive definition,
following the spec's words amended by what the loop does: a node emits one
fragment under the renderer its own heading resolves to (or the inherited
one), and its children are visited in reverse order, each under the renderer
active at the node. -/
def renderNestedSpec (r : RendererTag) (s : SectionTree) : List Fragment :=
  match s with
  | SectionTree.mk h c cs =>
    let r' := (heading_to_renderer h).getD r
    callRenderer r' (SectionTree.mk h c cs) ::
      (cs.reverse.attach.map (fun x => renderNestedSpec r' x.val)).flatten
termination_by sizeOf s
decreasing_by
  have hmem := x.property
  rw [List.mem_reverse] at hmem
  have := List.sizeOf_lt_of_mem hmem
  simp only [SectionTree.mk.sizeOf_spec]
  omega

/-- Document order of a section tree: depth-first, pre-order, children in
their original left-to-right order. -/
def preorderSecs (s : SectionTree) : List SectionTree :=
  match s with
  | SectionTree.mk h c cs =>
    SectionTree.mk h c cs :: (cs.attach.map (fun x => preorderSecs x.val)).flatten
termination_by sizeOf s
decreasing_by
  have := List.sizeOf_lt_of_mem x.property
  simp only [SectionTree.mk.sizeOf_spec]
  omega

/-- The `Recipe` record of `main.py`. -/
structure Recipe where
  name : String
  description : String
  ingredients : List String
  steps : List String
deriving DecidableEq, Repr

/-- `parse_recipe_text` of `main.py`: parse the flat sections and read the
name/description from `sections[0]`, the ingredients from `sections[1]` and
the steps from `sections[2]` — an `IndexError` (fewer than three sections)
is `none`; any further sections are ignored. -/
def parse_recipe_text (recipe : String) : Option Recipe :=
  (parse_sections recipe).bind
    (fun sections =>
      match sections with
      | s0 :: s1 :: s2 :: _ =>
        some ⟨s0.heading.text,
              String.intercalate "\n" (s0.content.filter (fun l => l != "")),
              s1.content.filter (fun l => l != ""),
              render_prep_steps s2.content⟩
      | _ => none)

/-! Helper lemmas for the store model. -/

theorem getD_set_self (store : List (List SectionObj)) (r : Nat)
    (v : List SectionObj) (h : r < store.length) : (store.set r v).getD r [] = v := by
  induction store generalizing r with
  | nil => simp at h
  | cons a l ih =>
    cases r with
    | zero => rfl
    | succ r =>
      simp only [List.set_cons_succ, List.getD_cons_succ]
      exact ih r (by simpa using h)

theorem getD_set_ne (store : List (List SectionObj)) (r i : Nat)
    (v : List SectionObj) (h : i ≠ r) : (store.set r v).getD i [] = store.getD i [] := by
  induction store generalizing r i with
  | nil => rfl
  | cons a l ih =>
    cases r with
    | zero =>
      cases i with
      | zero => exact absurd rfl h
      | succ i => rfl
    | succ r =>
      cases i with
      | zero => rfl
      | succ i =>
        simp only [List.set_cons_succ, List.getD_cons_succ]
        exact ih r i (fun he => h (by rw [he]))

theorem getD_replicate_nil (n i : Nat) :
    (List.replicate n ([] : List SectionObj)).getD i [] = [] := by
  induction n generalizing i with
  | zero => rfl
  | succ n ih =>
    cases i with
    | zero => rfl
    | succ i => exact ih i

theorem getD_mem_lt (store : List (List SectionObj)) (i : Nat) (q : SectionObj)
    (h : q ∈ store.getD i []) : i < store.length := by
  by_contra hge
  exact List.ne_nil_of_mem h (List.getD_eq_default _ _ (le_of_not_lt hge))

/-- The recursion equation of `flattenObjs`, with the termination guard
spelled as a plain conditional. -/
theorem flattenObjs_eq (store : List (List SectionObj)) (p : SectionObj) :
    flattenObjs store p = p :: ((store.getD p.ref []).map
      (fun c => if p.ref < c.ref then flattenObjs store c else [])).flatten := by
  rw [flattenObjs]
  congr 1
  simp only [dite_eq_ite]
  rw [List.attach_map_val (store.getD p.ref [])
    (fun c => if p.ref < c.ref then flattenObjs store c else [])]

theorem self_mem_flattenObjs (store : List (List SectionObj)) (p : SectionObj) :
    p ∈ flattenObjs store p := by
  rw [flattenObjs_eq]
  exact List.mem_cons_self _ _

theorem mem_flattenObjs_child (store : List (List SectionObj)) (p c q : SectionObj)
    (hc : c ∈ store.getD p.ref []) (hlt : p.ref < c.ref)
    (hq : q ∈ flattenObjs store c) : q ∈ flattenObjs store p := by
  rw [flattenObjs_eq]
  refine List.mem_cons_of_mem _ (List.mem_flatten.mpr ⟨flattenObjs store c, ?_, hq⟩)
  refine List.mem_map.mpr ⟨c, hc, ?_⟩
  simp [hlt]

theorem flattenObjs_congr_aux (store store' : List (List SectionObj))
    (hlen : store'.length = store.length) :
    ∀ n p, store.length - p.ref ≤ n →
    (∀ x, (∃ q ∈ flattenObjs store p, q.ref = x) →
      store'.getD x [] = store.getD x []) →
    flattenObjs store' p = flattenObjs store p := by
  intro n
  induction n with
  | zero =>
    intro p hm _
    have hge : store.length ≤ p.ref := by omega
    rw [flattenObjs_eq, flattenObjs_eq, List.getD_eq_default _ _ hge,
      List.getD_eq_default _ _ (hlen ▸ hge)]
    simp
  | succ n ih =>
    intro p hm hagree
    have hhead : store'.getD p.ref [] = store.getD p.ref [] :=
      hagree p.ref ⟨p, self_mem_flattenObjs store p, rfl⟩
    rw [flattenObjs_eq, flattenObjs_eq, hhead]
    congr 1
    congr 1
    refine List.map_congr_left (fun c hc => ?_)
    by_cases hlt : p.ref < c.ref
    · simp only [hlt, if_true]
      have hplen : p.ref < store.length := getD_mem_lt store p.ref c hc
      refine ih c (by omega) (fun x hx => ?_)
      refine hagree x ?_
      obtain ⟨q, hq, hqx⟩ := hx
      exact ⟨q, mem_flattenObjs_child store p c q hc hlt hq, hqx⟩
    · simp only [hlt, if_false]

/-- `flattenObjs` reads the store only at the references appearing in its own
output: two stores of equal length agreeing there flatten equally. -/
theorem flattenObjs_congr (store store' : List (List SectionObj))
    (hlen : store'.length = store.length) (p : SectionObj)
    (hagree : ∀ x, (∃ q ∈ flattenObjs store p, q.ref = x) →
      store'.getD x [] = store.getD x []) :
    flattenObjs store' p = flattenObjs store p :=
  flattenObjs_congr_aux store store' hlen (store.length - p.ref) p le_rfl hagree

theorem sectionObjAt_injective (sections : List Section) :
    Function.Injective (sectionObjAt sections) := by
  intro a b h
  exact congrArg SectionObj.ref h

theorem sliceObjs_self (sections : List Section) (a : Nat) :
    sliceObjs sections a a = [sectionObjAt sections a] := by
  unfold sliceObjs
  have h : a + 1 - a = 1 := by omega
  rw [h]
  rfl

theorem sliceObjs_snoc (sections : List Section) (a k : Nat) (h : a ≤ k + 1) :
    sliceObjs sections a (k + 1) =
      sliceObjs sections a k ++ [sectionObjAt sections (k + 1)] := by
  unfold sliceObjs
  have h1 : k + 1 + 1 - a = 1 + (k + 1 - a) := by omega
  have h2 : a + 1 * (k + 1 - a) = k + 1 := by omega
  rw [h1, ← List.range'_append a (k + 1 - a) 1 1]
  rw [List.map_append]
  congr 2
  rw [h2]
  rfl

theorem mem_sliceObjs (sections : List Section) (a k r : Nat) :
    sectionObjAt sections r ∈ sliceObjs sections a k ↔ (a ≤ r ∧ r ≤ k) := by
  unfold sliceObjs
  rw [List.mem_map]
  constructor
  · rintro ⟨i, hi, he⟩
    have : i = r := congrArg SectionObj.ref he
    subst this
    rw [List.mem_range'_1] at hi
    omega
  · intro hr
    exact ⟨r, List.mem_range'_1.mpr (by omega), rfl⟩

theorem sliceObjs_nodup (sections : List Section) (a k : Nat) :
    (sliceObjs sections a k).Nodup :=
  (List.nodup_range' _ _).map (sectionObjAt_injective sections)

theorem count_sliceObjs (sections : List Section) (a k r : Nat)
    (h : a ≤ r ∧ r ≤ k) :
    (sliceObjs sections a k).count (sectionObjAt sections r) = 1 :=
  List.count_eq_one_of_mem (sliceObjs_nodup sections a k)
    ((mem_sliceObjs sections a k r).mpr h)

/-! Characterisation of `nearestSmaller` and the pop loop. -/

theorem getLast_filter_range (j i : Nat) (p : Nat → Bool) (hpi : p i = true)
    (hij : i < j) (hafter : ∀ x, i < x → x < j → p x = false) :
    ((List.range j).filter p).getLast? = some i := by
  have hsplit : List.range j = List.range (i + 1) ++ List.range' (i + 1) (j - (i + 1)) := by
    rw [List.range_eq_range', List.range_eq_range']
    have := List.range'_append 0 (i + 1) (j - (i + 1)) 1
    simp only [Nat.one_mul, Nat.zero_add] at this
    rw [this]
    congr 1
    omega
  rw [hsplit, List.filter_append]
  have hnil : (List.range' (i + 1) (j - (i + 1))).filter p = [] := by
    rw [List.filter_eq_nil_iff]
    intro a ha
    rw [List.mem_range'_1] at ha
    simp only [Bool.not_eq_true]
    exact hafter a (by omega) (by omega)
  rw [hnil, List.append_nil, List.range_succ, List.filter_append]
  have hi : [i].filter p = [i] := by simp [hpi]
  rw [hi, List.getLast?_concat]

theorem nearestSmaller_eq (sections : List Section) (j i : Nat)
    (hlt : lvlAt sections i < lvlAt sections j) (hij : i < j)
    (hafter : ∀ x, i < x → x < j → lvlAt sections j ≤ lvlAt sections x) :
    nearestSmaller sections j = some i := by
  unfold nearestSmaller
  refine getLast_filter_range j i _ (by simp [hlt]) hij (fun x h1 h2 => ?_)
  simp only [decide_eq_false_iff_not, not_lt]
  exact hafter x h1 h2

theorem popWhile_head_lt (L : Nat) (stack : List SectionObj)
    (top : SectionObj) (rest : List SectionObj)
    (h : popWhile L stack = top :: rest) : top.heading.level < L := by
  have := List.head?_dropWhile_not (fun p => decide (L ≤ p.heading.level)) stack
  unfold popWhile at h
  rw [h] at this
  simp only [List.head?_cons] at this
  simpa using this

theorem popWhile_suffix (L : Nat) (stack : List SectionObj) :
    popWhile L stack <:+ stack :=
  List.dropWhile_suffix _

theorem popWhile_ne_nil (L : Nat) (stack : List SectionObj) (b : SectionObj)
    (hb : stack.getLast? = some b) (hlvl : b.heading.level < L) :
    popWhile L stack ≠ [] := by
  intro hnil
  unfold popWhile at hnil
  rw [List.dropWhile_eq_nil_iff] at hnil
  have hmem : b ∈ stack := by
    cases stack with
    | nil => simp at hb
    | cons a l =>
      have : (a :: l).getLast (by simp) = b := by
        rw [List.getLast?_eq_getLast _ (by simp)] at hb
        exact Option.some_injective _ hb
      rw [← this]
      exact List.getLast_mem _
  have := hnil b hmem
  simp only [decide_eq_true_eq] at this
  omega

theorem suffix_getLast (l m : List SectionObj) (h : m <:+ l) (hm : m ≠ []) :
    m.getLast? = l.getLast? := by
  obtain ⟨pre, rfl⟩ := h
  rw [List.getLast?_append_of_ne_nil pre hm]

/-- Every processed index above the post-pop top and at most the pre-pop top
has level at least `L`: the popped stack entries cover `(top.ref, k]`. -/
theorem stack_cover (sections : List Section) (L : Nat) :
    ∀ (stack : List SectionObj) (top : SectionObj) (rest : List SectionObj),
    List.Chain' (fun p q => q.ref < p.ref ∧ q.heading.level < p.heading.level ∧
      ∀ x, q.ref < x → x < p.ref → p.heading.level ≤ lvlAt sections x) stack →
    (∀ p ∈ stack, p.heading.level = lvlAt sections p.ref) →
    popWhile L stack = top :: rest →
    ∀ x, top.ref < x → (∀ hd ht, stack = hd :: ht → x ≤ hd.ref) →
    L ≤ lvlAt sections x := by
  intro stack
  induction stack with
  | nil => intro top rest _ _ h; simp [popWhile, List.dropWhile] at h
  | cons hd ht ih =>
    intro top rest hchain hobjs hpop x hx hxle
    have hxhd : x ≤ hd.ref := hxle hd ht rfl
    by_cases hp : L ≤ hd.heading.level
    · have hpop' : popWhile L ht = top :: rest := by
        unfold popWhile at hpop ⊢
        rw [List.dropWhile_cons_of_pos (by simpa using hp)] at hpop
        exact hpop
      by_cases hxeq : x = hd.ref
      · subst hxeq
        rw [← hobjs hd (List.mem_cons_self _ _)]
        exact hp
      · have hxlt : x < hd.ref := by omega
        cases ht with
        | nil => simp [popWhile, List.dropWhile] at hpop'
        | cons q qt =>
          have hrel := List.chain'_cons.mp hchain |>.1
          by_cases hxq : q.ref < x
          · exact le_trans hp (hrel.2.2 x hxq hxlt)
          · refine ih top rest (List.chain'_cons.mp hchain).2
              (fun p hp' => hobjs p (List.mem_cons_of_mem _ hp')) hpop' x hx ?_
            intro hd' ht' he
            cases he
            omega
    · unfold popWhile at hpop
      rw [List.dropWhile_cons_of_neg (by simpa using hp)] at hpop
      cases hpop
      omega

/-! The spine update lemma: appending the fresh section to a right-spine node
extends every spine subtree's pre-order flattening by that one object. -/

theorem getLast?_decomp (l : List SectionObj) (b : SectionObj)
    (h : l.getLast? = some b) : ∃ init, l = init ++ [b] := by
  cases l with
  | nil => simp at h
  | cons a t =>
    refine ⟨(a :: t).dropLast, ?_⟩
    have hne : a :: t ≠ [] := by simp
    rw [List.getLast?_eq_getLast _ hne] at h
    have hb := Option.some_injective _ h
    rw [← hb]
    exact (List.dropLast_append_getLast hne).symm

theorem sliceObjs_shape (sections : List Section) (a k : Nat) :
    ∀ q ∈ sliceObjs sections a k, q = sectionObjAt sections q.ref := by
  intro q hq
  unfold sliceObjs at hq
  obtain ⟨i, _, rfl⟩ := List.mem_map.mp hq
  rfl

theorem chain_ref_le (sections : List Section) :
    ∀ (stack : List SectionObj) (h : SectionObj),
    List.Chain' (fun p q => q.ref < p.ref) (h :: stack) →
    ∀ p ∈ h :: stack, p.ref ≤ h.ref := by
  intro stack
  induction stack with
  | nil =>
    intro h _ p hp
    rw [List.mem_singleton] at hp
    rw [hp]
  | cons q t ih =>
    intro h hchain p hp
    have hrel := (List.chain'_cons.mp hchain).1
    rcases List.mem_cons.mp hp with hph | hpt
    · rw [hph]
    · exact le_trans (ih q (List.chain'_cons.mp hchain).2 p hpt) (le_of_lt hrel)

theorem chain_lvl_ge_bottom :
    ∀ (stack : List SectionObj) (b : SectionObj),
    List.Chain' (fun p q => q.heading.level < p.heading.level) stack →
    stack.getLast? = some b →
    ∀ p ∈ stack, b.heading.level ≤ p.heading.level := by
  intro stack
  induction stack with
  | nil => intro b _ hb; simp at hb
  | cons h t ih =>
    intro b hchain hb p hp
    cases t with
    | nil =>
      simp only [List.getLast?_singleton] at hb
      cases hb
      rw [List.mem_singleton] at hp
      rw [hp]
    | cons q t' =>
      have hb' : (q :: t').getLast? = some b := by
        rw [List.getLast?_cons_cons] at hb
        exact hb
      have hrel := (List.chain'_cons.mp hchain).1
      rcases List.mem_cons.mp hp with hph | hpt
      · rw [hph]
        exact le_trans (ih b (List.chain'_cons.mp hchain).2 hb' q
          (List.mem_cons_self _ _)) (le_of_lt hrel)
      · exact ih b (List.chain'_cons.mp hchain).2 hb' p hpt

/-- No object of reference `r` occurs in the flattening of a child of a node
whose own flattening is the slice from its reference to `k`, besides the one
occurrence the slice accounts for (in the node itself when the node is object
`r`, or in the last child's subtree when that subtree covers `r`). -/
theorem no_r_in_other_child (sections : List Section) (k r : Nat)
    (store : List (List SectionObj)) (q : SectionObj)
    (hflat : flattenObjs store q = sliceObjs sections q.ref k)
    (hcount : ((store.getD q.ref []).map
        (fun c => if q.ref < c.ref then flattenObjs store c else [])).flatten.count
        (sectionObjAt sections r) = 0)
    (c : SectionObj) (hc : c ∈ store.getD q.ref []) (hguard : q.ref < c.ref) :
    ∀ x, (∃ q' ∈ flattenObjs store c, q'.ref = x) → x ≠ r := by
  rintro x ⟨q', hq', rfl⟩ rfl
  have hqmem : q' ∈ flattenObjs store q :=
    mem_flattenObjs_child store q c q' hc hguard hq'
  rw [hflat] at hqmem
  have hshape := sliceObjs_shape sections q.ref k q' hqmem
  have hmem2 : sectionObjAt sections q'.ref ∈
      ((store.getD q.ref []).map
        (fun c => if q.ref < c.ref then flattenObjs store c else [])).flatten := by
    rw [List.mem_flatten]
    refine ⟨flattenObjs store c, List.mem_map.mpr ⟨c, hc, by simp [hguard]⟩, ?_⟩
    rw [← hshape]
    exact hq'
  rw [List.count_eq_zero] at hcount
  exact hcount hmem2

theorem sectionObjAt_ref (sections : List Section) (i : Nat) :
    (sectionObjAt sections i).ref = i := rfl

theorem sectionObjAt_level (sections : List Section) (i : Nat) :
    (sectionObjAt sections i).heading.level = lvlAt sections i := rfl

/-- In a node whose subtree flattens to a duplicate-free slice containing
object `r`, when the last child's subtree already contains object `r`, no
earlier child's subtree can mention reference `r`. -/
theorem no_r_in_init_child (sections : List Section) (k r : Nat)
    (store : List (List SectionObj)) (q : SectionObj)
    (hflat : flattenObjs store q = sliceObjs sections q.ref k)
    (init : List SectionObj) (hl : SectionObj)
    (hdec : store.getD q.ref [] = init ++ [hl])
    (hguardl : q.ref < hl.ref)
    (hrin : sectionObjAt sections r ∈ flattenObjs store hl)
    (hqr : q.ref ≤ r) (hrk : r ≤ k)
    (c : SectionObj) (hc : c ∈ init) (hguard : q.ref < c.ref) :
    ∀ x, (∃ q' ∈ flattenObjs store c, q'.ref = x) → x ≠ r := by
  rintro x ⟨q', hq', rfl⟩ rfl
  have hcmem : c ∈ store.getD q.ref [] := by
    rw [hdec]; exact List.mem_append_left _ hc
  have hqmem : q' ∈ flattenObjs store q :=
    mem_flattenObjs_child store q c q' hcmem hguard hq'
  have hq'shape : q' = sectionObjAt sections q'.ref := by
    rw [hflat] at hqmem
    exact sliceObjs_shape sections q.ref k q' hqmem
  have hone : (flattenObjs store q).count (sectionObjAt sections q'.ref) = 1 := by
    rw [hflat]
    exact count_sliceObjs sections q.ref k q'.ref ⟨hqr, hrk⟩
  set a := sectionObjAt sections q'.ref with ha
  have hdecf : flattenObjs store q = q ::
      (((store.getD q.ref []).map
        (fun c => if q.ref < c.ref then flattenObjs store c else [])).flatten) :=
    flattenObjs_eq store q
  rw [hdecf, hdec, List.map_append, List.flatten_append] at hone
  have hcount_last : 1 ≤ (([hl].map
      (fun c => if q.ref < c.ref then flattenObjs store c else [])).flatten).count a := by
    simp only [List.map_cons, List.map_nil, List.flatten_cons, List.flatten_nil,
      List.append_nil, hguardl, if_true]
    rw [Nat.one_le_iff_ne_zero, Ne, List.count_eq_zero]
    intro hnot
    exact hnot hrin
  have hcount_c : 1 ≤ ((init.map
      (fun c => if q.ref < c.ref then flattenObjs store c else [])).flatten).count a := by
    rw [List.count_flatten]
    have hmm : (flattenObjs store c).count a ∈
        (init.map (fun c => if q.ref < c.ref then flattenObjs store c else [])).map
          (List.count a) := by
      rw [List.map_map]
      refine List.mem_map.mpr ⟨c, hc, ?_⟩
      simp [hguard]
    have hsum := List.single_le_sum (by intro y _; omega) _ hmm
    have hain : a ∈ flattenObjs store c := hq'shape ▸ hq'
    have hpos : 0 < (flattenObjs store c).count a := List.count_pos_iff.mpr hain
    omega
  rw [List.count_cons, List.count_append] at hone
  omega

/-- Flattening the fresh object `k+1` in the updated store gives just that
object: its own children list is still empty. -/
theorem flatten_new (sections : List Section) (k r : Nat)
    (store : List (List SectionObj)) (hrk : r ≤ k)
    (hhi : store.getD (k + 1) [] = []) :
    flattenObjs (bumpStore store r (sectionObjAt sections (k + 1)))
      (sectionObjAt sections (k + 1)) = [sectionObjAt sections (k + 1)] := by
  rw [flattenObjs_eq]
  have hgd : (bumpStore store r (sectionObjAt sections (k + 1))).getD
      (sectionObjAt sections (k + 1)).ref [] = [] := by
    rw [sectionObjAt_ref]
    unfold bumpStore
    rw [getD_set_ne store r (k + 1) _ (by omega)]
    exact hhi
  rw [hgd]
  simp

/-- Appending the fresh object to the top's children list appends exactly it
to the top's flattening. -/
theorem flatten_bump_top (sections : List Section) (k r : Nat)
    (store : List (List SectionObj))
    (hrk : r ≤ k) (hrlen : r < store.length)
    (hflat : flattenObjs store (sectionObjAt sections r) = sliceObjs sections r k)
    (hhi : store.getD (k + 1) [] = [])
    (hguards : ∀ c ∈ store.getD r [], r < c.ref) :
    flattenObjs (bumpStore store r (sectionObjAt sections (k + 1)))
        (sectionObjAt sections r)
      = flattenObjs store (sectionObjAt sections r)
        ++ [sectionObjAt sections (k + 1)] := by
  have hlen : (bumpStore store r (sectionObjAt sections (k + 1))).length = store.length := by
    unfold bumpStore; exact List.length_set store r _
  have hchildren : (bumpStore store r (sectionObjAt sections (k + 1))).getD
      (sectionObjAt sections r).ref []
      = store.getD r [] ++ [sectionObjAt sections (k + 1)] := by
    rw [sectionObjAt_ref]
    unfold bumpStore
    exact getD_set_self store r _ hrlen
  have hcount0 : (((store.getD r []).map
      (fun c => if r < c.ref then flattenObjs store c else [])).flatten).count
      (sectionObjAt sections r) = 0 := by
    have hone : (flattenObjs store (sectionObjAt sections r)).count
        (sectionObjAt sections r) = 1 := by
      rw [hflat]
      exact count_sliceObjs sections r k r ⟨le_rfl, hrk⟩
    rw [flattenObjs_eq, sectionObjAt_ref, List.count_cons] at hone
    simp only [beq_self_eq_true, if_true] at hone
    omega
  rw [flattenObjs_eq (bumpStore store r (sectionObjAt sections (k + 1)))
    (sectionObjAt sections r), hchildren, List.map_append, List.flatten_append]
  have hmapeq : (store.getD r []).map
      (fun c => if (sectionObjAt sections r).ref < c.ref then
        flattenObjs (bumpStore store r (sectionObjAt sections (k + 1))) c else [])
      = (store.getD r []).map
      (fun c => if r < c.ref then flattenObjs store c else []) := by
    refine List.map_congr_left (fun c hc => ?_)
    rw [sectionObjAt_ref]
    have hg := hguards c hc
    simp only [hg, if_true]
    refine flattenObjs_congr store _ hlen c (fun x hx => ?_)
    have hxr : x ≠ r :=
      no_r_in_other_child sections k r store (sectionObjAt sections r)
        (by rw [sectionObjAt_ref]; exact hflat)
        (by rw [sectionObjAt_ref]; exact hcount0) c
        (by rw [sectionObjAt_ref]; exact hc)
        (by rw [sectionObjAt_ref]; exact hg) x hx
    unfold bumpStore
    exact getD_set_ne store r x _ hxr
  rw [hmapeq]
  have hnew : ([sectionObjAt sections (k + 1)].map
      (fun c => if (sectionObjAt sections r).ref < c.ref then
        flattenObjs (bumpStore store r (sectionObjAt sections (k + 1))) c else [])).flatten
      = [sectionObjAt sections (k + 1)] := by
    simp only [List.map_cons, List.map_nil, List.flatten_cons, List.flatten_nil,
      List.append_nil, sectionObjAt_ref]
    have hg : r < (sectionObjAt sections (k + 1)).ref := by
      rw [sectionObjAt_ref]; omega
    simp only [sectionObjAt_ref] at hg
    simp only [hg, if_true]
    exact flatten_new sections k r store hrk hhi
  rw [hnew, flattenObjs_eq store (sectionObjAt sections r), sectionObjAt_ref]
  simp

/-- Walking down the spine: once the top's flattening is known to gain the
fresh object, every lower stack entry's flattening gains it too (the top is
reached from each of them along last children). -/
theorem flatten_bump_aux (sections : List Section) (k r : Nat)
    (store : List (List SectionObj)) (hrk : r ≤ k) :
    ∀ stack : List SectionObj,
    List.Chain' (fun p q => (store.getD q.ref []).getLast? = some p) stack →
    List.Chain' (fun p q => q.ref < p.ref) stack →
    (∀ p ∈ stack, p.ref ≤ r) →
    (∀ p ∈ stack, flattenObjs store p = sliceObjs sections p.ref k) →
    (∀ hd, stack.head? = some hd →
      flattenObjs (bumpStore store r (sectionObjAt sections (k + 1))) hd
        = flattenObjs store hd ++ [sectionObjAt sections (k + 1)]) →
    ∀ p ∈ stack,
      flattenObjs (bumpStore store r (sectionObjAt sections (k + 1))) p
        = flattenObjs store p ++ [sectionObjAt sections (k + 1)] := by
  intro stack
  induction stack with
  | nil => intro _ _ _ _ _ p hp; simp at hp
  | cons h t ih =>
    intro hspine hrefs hler hflat hhead p hp
    rcases List.mem_cons.mp hp with hph | hpt
    · rw [hph]; exact hhead h rfl
    · cases t with
      | nil => simp at hpt
      | cons q t' =>
        have hhq : q.ref < h.ref := (List.chain'_cons.mp hrefs).1
        have hqr : q.ref < r := lt_of_lt_of_le hhq (hler h (List.mem_cons_self _ _))
        have hspineRel := (List.chain'_cons.mp hspine).1
        obtain ⟨init, hdec⟩ := getLast?_decomp _ h hspineRel
        have hchildq : (bumpStore store r (sectionObjAt sections (k + 1))).getD q.ref []
            = store.getD q.ref [] := by
          unfold bumpStore
          exact getD_set_ne store r q.ref _ (by omega)
        have hlen : (bumpStore store r (sectionObjAt sections (k + 1))).length
            = store.length := by
          unfold bumpStore; exact List.length_set store r _
        have hqmem : q ∈ h :: q :: t' := List.mem_cons_of_mem _ (List.mem_cons_self _ _)
        have hflatq := hflat q hqmem
        have hhR : sectionObjAt sections r ∈ flattenObjs store h := by
          rw [hflat h (List.mem_cons_self _ _)]
          exact (mem_sliceObjs sections h.ref k r).mpr
            ⟨hler h (List.mem_cons_self _ _), hrk⟩
        have hq_eq : flattenObjs (bumpStore store r (sectionObjAt sections (k + 1))) q
            = flattenObjs store q ++ [sectionObjAt sections (k + 1)] := by
          rw [flattenObjs_eq (bumpStore store r (sectionObjAt sections (k + 1))) q,
            hchildq, hdec, List.map_append, List.flatten_append]
          have hmap : init.map (fun c => if q.ref < c.ref then
              flattenObjs (bumpStore store r (sectionObjAt sections (k + 1))) c else [])
              = init.map (fun c => if q.ref < c.ref then flattenObjs store c else []) := by
            refine List.map_congr_left (fun c hc => ?_)
            by_cases hg : q.ref < c.ref
            · simp only [hg, if_true]
              refine flattenObjs_congr store _ hlen c (fun x hx => ?_)
              have hxr : x ≠ r :=
                no_r_in_init_child sections k r store q hflatq init h hdec hhq hhR
                  (le_of_lt hqr) hrk c hc hg x hx
              unfold bumpStore
              exact getD_set_ne store r x _ hxr
            · simp only [hg, if_false]
          have hlast : ([h].map (fun c => if q.ref < c.ref then
              flattenObjs (bumpStore store r (sectionObjAt sections (k + 1))) c else [])).flatten
              = flattenObjs store h ++ [sectionObjAt sections (k + 1)] := by
            simp only [List.map_cons, List.map_nil, List.flatten_cons, List.flatten_nil,
              List.append_nil, hhq, if_true]
            exact hhead h rfl
          rw [hmap, hlast, flattenObjs_eq store q, hdec, List.map_append,
            List.flatten_append]
          simp only [List.map_cons, List.map_nil, List.flatten_cons, List.flatten_nil,
            List.append_nil, hhq, if_true, List.cons_append, List.append_assoc]
        refine ih (List.chain'_cons.mp hspine).2 (List.chain'_cons.mp hrefs).2
          (fun p' hp' => hler p' (List.mem_cons_of_mem _ hp'))
          (fun p' hp' => hflat p' (List.mem_cons_of_mem _ hp'))
          (fun hd hhd => ?_) p hpt
        rw [List.head?_cons] at hhd
        cases hhd
        exact hq_eq

theorem spine_chain_transport (store store' : List (List SectionObj)) :
    ∀ stackl : List SectionObj,
    List.Chain' (fun p q => (store.getD q.ref []).getLast? = some p) stackl →
    (∀ q ∈ stackl.tail, store'.getD q.ref [] = store.getD q.ref []) →
    List.Chain' (fun p q => (store'.getD q.ref []).getLast? = some p) stackl := by
  intro stackl
  induction stackl with
  | nil => intro _ _; exact List.chain'_nil
  | cons p t ih =>
    intro hchain hagree
    cases t with
    | nil => exact List.chain'_singleton p
    | cons q t' =>
      rw [List.chain'_cons] at hchain ⊢
      refine ⟨?_, ih hchain.2 (fun x hx => hagree x (List.mem_cons_of_mem _ hx))⟩
      rw [hagree q (List.mem_cons_self _ _)]
      exact hchain.1

/-- One iteration of the `nest_sections` loop preserves the invariant: the
pop loop uncovers exactly the nearest preceding strictly-shallower section,
the fresh object is appended to its children list and pushed. -/
theorem nestStep (sections : List Section) (k : Nat)
    (stack : List SectionObj) (store : List (List SectionObj))
    (inv : NestInv sections k stack store)
    (h1 : lvlAt sections 0 = 1)
    (hk1 : k + 1 < sections.length)
    (hL : 2 ≤ lvlAt sections (k + 1)) :
    ∃ top rest, popWhile (lvlAt sections (k + 1)) stack = top :: rest ∧
      nearestSmaller sections (k + 1) = some top.ref ∧
      NestInv sections (k + 1)
        (sectionObjAt sections (k + 1) :: top :: rest)
        (bumpStore store top.ref (sectionObjAt sections (k + 1))) := by
  have hbotlvl : (sectionObjAt sections 0).heading.level < lvlAt sections (k + 1) := by
    rw [sectionObjAt_level, h1]; omega
  have hne := popWhile_ne_nil (lvlAt sections (k + 1)) stack _ inv.bottomEq hbotlvl
  obtain ⟨top, rest, hpop⟩ : ∃ top rest,
      popWhile (lvlAt sections (k + 1)) stack = top :: rest := by
    cases hp : popWhile (lvlAt sections (k + 1)) stack with
    | nil => exact absurd hp hne
    | cons a l => exact ⟨a, l, rfl⟩
  have hsuffix : top :: rest <:+ stack := hpop ▸ popWhile_suffix _ stack
  have hsub : ∀ p ∈ top :: rest, p ∈ stack := fun p hp => hsuffix.subset hp
  have htopmem : top ∈ stack := hsub top (List.mem_cons_self _ _)
  obtain ⟨htopshape, htopk⟩ := inv.stackObjs top htopmem
  have htoplvl : top.heading.level < lvlAt sections (k + 1) :=
    popWhile_head_lt _ stack top rest hpop
  have hstackshape : ∀ p ∈ stack, p.heading.level = lvlAt sections p.ref := by
    intro p hp
    rw [(inv.stackObjs p hp).1]
    rfl
  have hcover : ∀ x, top.ref < x → x < k + 1 →
      lvlAt sections (k + 1) ≤ lvlAt sections x := by
    intro x hx1 hx2
    refine stack_cover sections (lvlAt sections (k + 1)) stack top rest inv.chainGap
      hstackshape hpop x hx1 ?_
    intro hd ht he
    have : stack.head? = some hd := by rw [he]; rfl
    rw [inv.topEq] at this
    cases this
    rw [sectionObjAt_ref]
    omega
  have hnear : nearestSmaller sections (k + 1) = some top.ref := by
    refine nearestSmaller_eq sections (k + 1) top.ref ?_ (by omega) hcover
    calc lvlAt sections top.ref = top.heading.level := by
          rw [htopshape]; rfl
    _ < lvlAt sections (k + 1) := htoplvl
  have hrk : top.ref ≤ k := htopk
  have hrlen : top.ref < store.length := by rw [inv.storeLen]; omega
  have hchainGapPop : List.Chain' (fun p q => q.ref < p.ref ∧
      q.heading.level < p.heading.level ∧
      ∀ x, q.ref < x → x < p.ref → p.heading.level ≤ lvlAt sections x)
      (top :: rest) := inv.chainGap.suffix hsuffix
  have hrefsPop : List.Chain' (fun p q => q.ref < p.ref) (top :: rest) :=
    hchainGapPop.imp (fun _ _ h => h.1)
  have hrefle : ∀ p ∈ top :: rest, p.ref ≤ top.ref :=
    chain_ref_le sections rest top hrefsPop
  have hspinePop : List.Chain' (fun p q => (store.getD q.ref []).getLast? = some p)
      (top :: rest) := inv.spine.suffix hsuffix
  have hflatPop : ∀ p ∈ top :: rest,
      flattenObjs store p = sliceObjs sections p.ref k :=
    fun p hp => inv.flatEq p (hsub p hp)
  have hhi : store.getD (k + 1) [] = [] := inv.storeHi (k + 1) (by omega)
  have hguards : ∀ c ∈ store.getD top.ref [], top.ref < c.ref :=
    fun c hc => (inv.storeElems top.ref c hc).2.1
  have hflatTopSlice : flattenObjs store (sectionObjAt sections top.ref)
      = sliceObjs sections top.ref k := by
    rw [← htopshape]
    exact hflatPop top (List.mem_cons_self _ _)
  have hbumpTop : flattenObjs (bumpStore store top.ref (sectionObjAt sections (k + 1))) top
      = flattenObjs store top ++ [sectionObjAt sections (k + 1)] := by
    conv_lhs => rw [htopshape]
    conv_rhs => rw [htopshape]
    exact flatten_bump_top sections k top.ref store hrk hrlen hflatTopSlice hhi hguards
  have hbumpAll : ∀ p ∈ top :: rest,
      flattenObjs (bumpStore store top.ref (sectionObjAt sections (k + 1))) p
        = flattenObjs store p ++ [sectionObjAt sections (k + 1)] := by
    refine flatten_bump_aux sections k top.ref store hrk (top :: rest) hspinePop
      hrefsPop hrefle hflatPop (fun hd hhd => ?_)
    rw [List.head?_cons] at hhd
    cases hhd
    exact hbumpTop
  have hstorelen' : (bumpStore store top.ref (sectionObjAt sections (k + 1))).length
      = store.length := by
    unfold bumpStore; exact List.length_set store top.ref _
  have hgdself : (bumpStore store top.ref (sectionObjAt sections (k + 1))).getD top.ref []
      = store.getD top.ref [] ++ [sectionObjAt sections (k + 1)] := by
    unfold bumpStore
    exact getD_set_self store top.ref _ hrlen
  have hgdne : ∀ i, i ≠ top.ref →
      (bumpStore store top.ref (sectionObjAt sections (k + 1))).getD i []
        = store.getD i [] := by
    intro i hi
    unfold bumpStore
    exact getD_set_ne store top.ref i _ hi
  refine ⟨top, rest, hpop, hnear, ?_⟩
  refine ⟨?_, hk1, rfl, ?_, ?_, ?_, ?_, ?_, ?_, ?_, ?_⟩
  · rw [hstorelen', inv.storeLen]
  · -- bottom
    rw [List.getLast?_cons_cons]
    have hnenil : top :: rest ≠ [] := by simp
    rw [suffix_getLast stack (top :: rest) hsuffix hnenil]
    exact inv.bottomEq
  · -- stackObjs
    intro p hp
    rcases List.mem_cons.mp hp with hph | hpt
    · rw [hph]
      exact ⟨rfl, by rw [sectionObjAt_ref]⟩
    · obtain ⟨hs, hk'⟩ := inv.stackObjs p (hsub p hpt)
      exact ⟨hs, by omega⟩
  · -- chainGap
    rw [List.chain'_cons]
    refine ⟨⟨?_, ?_, ?_⟩, hchainGapPop⟩
    · rw [sectionObjAt_ref]; omega
    · rw [sectionObjAt_level]; exact htoplvl
    · intro x hx1 hx2
      rw [sectionObjAt_level] at *
      rw [sectionObjAt_ref] at hx2
      exact hcover x hx1 hx2
  · -- spine
    rw [List.chain'_cons]
    constructor
    · rw [hgdself]
      exact List.getLast?_concat _
    · refine spine_chain_transport store _ (top :: rest) hspinePop ?_
      intro q hq
      rw [List.tail_cons] at hq
      have hqtop : q.ref < top.ref := by
        have := hrefsPop
        rw [List.chain'_cons'] at this
        -- derive from chain_ref_le on rest
        have hmem : q ∈ top :: rest := List.mem_cons_of_mem _ hq
        have hle := hrefle q hmem
        -- need strict: q ≠ top... use chain on (top :: rest)
        rcases List.exists_cons_of_ne_nil (l := rest) (by intro h; rw [h] at hq; simp at hq) with ⟨r0, rt, hr0⟩
        subst hr0
        have h0 := (List.chain'_cons.mp hrefsPop).1
        rcases List.mem_cons.mp hq with h' | h'
        · rw [h']; exact h0
        · have := chain_ref_le sections rt r0 (List.chain'_cons.mp hrefsPop).2 q
            (List.mem_cons.mpr (Or.inr h'))
          omega
      exact hgdne q.ref (by omega)
  · -- storeElems
    intro i q' hq'
    by_cases hi : i = top.ref
    · subst hi
      rw [hgdself] at hq'
      rcases List.mem_append.mp hq' with hold | hnew
      · obtain ⟨hs, hlt, h1', hk'⟩ := inv.storeElems top.ref q' hold
        exact ⟨hs, hlt, h1', by omega⟩
      · rw [List.mem_singleton] at hnew
        rw [hnew]
        refine ⟨rfl, ?_, ?_, ?_⟩ <;> rw [sectionObjAt_ref] <;> omega
    · rw [hgdne i hi] at hq'
      obtain ⟨hs, hlt, h1', hk'⟩ := inv.storeElems i q' hq'
      exact ⟨hs, hlt, h1', by omega⟩
  · -- storeHi
    intro i hi
    rw [hgdne i (by omega)]
    exact inv.storeHi i (by omega)
  · -- flatEq
    intro p hp
    rcases List.mem_cons.mp hp with hph | hpt
    · rw [hph, flatten_new sections k top.ref store hrk hhi, sectionObjAt_ref,
        sliceObjs_self]
    · rw [hbumpAll p hpt, hflatPop p hpt, sliceObjs_snoc]
      have := hrefle p hpt
      omega
  · -- memNearest
    intro j hj1 hjk
    by_cases hjnew : j = k + 1
    · subst hjnew
      refine ⟨top.ref, hnear, ?_⟩
      refine ⟨sectionObjAt sections (k + 1), ?_, sectionObjAt_ref _ _⟩
      rw [hgdself]
      exact List.mem_append_right _ (List.mem_singleton.mpr rfl)
    · obtain ⟨i, hni, q', hq', hqr⟩ := inv.memNearest j hj1 (by omega)
      refine ⟨i, hni, q', ?_, hqr⟩
      by_cases hi : i = top.ref
      · subst hi
        rw [hgdself]
        exact List.mem_append_left _ hq'
      · rw [hgdne i hi]
        exact hq'

theorem nestInvInit (sections : List Section) (hne : sections ≠ [])
    (h1 : lvlAt sections 0 = 1) :
    NestInv sections 0 [sectionObjAt sections 0]
      (List.replicate sections.length []) := by
  refine ⟨?_, ?_, rfl, rfl, ?_, ?_, ?_, ?_, ?_, ?_, ?_⟩
  · exact List.length_replicate _ _
  · exact List.length_pos.mpr hne
  · intro p hp
    rw [List.mem_singleton] at hp
    rw [hp]
    exact ⟨rfl, le_rfl⟩
  · exact List.chain'_singleton _
  · exact List.chain'_singleton _
  · intro i q hq
    rw [getD_replicate_nil] at hq
    exact absurd hq (List.not_mem_nil _)
  · intro i _
    exact getD_replicate_nil _ _
  · intro p hp
    rw [List.mem_singleton] at hp
    rw [hp, flattenObjs_eq, sectionObjAt_ref, getD_replicate_nil, sliceObjs_self]
    simp
  · intro j hj1 hj0
    omega

theorem nestStepFail (sections : List Section) (k : Nat)
    (stack : List SectionObj) (store : List (List SectionObj))
    (inv : NestInv sections k stack store)
    (h1 : lvlAt sections 0 = 1)
    (hL : lvlAt sections (k + 1) ≤ 1) :
    popWhile (lvlAt sections (k + 1)) stack = [] := by
  unfold popWhile
  rw [List.dropWhile_eq_nil_iff]
  intro p hp
  have hchainLvl : List.Chain' (fun p q => q.heading.level < p.heading.level) stack :=
    inv.chainGap.imp (fun _ _ h => h.2.1)
  have hbot := chain_lvl_ge_bottom stack (sectionObjAt sections 0) hchainLvl
    inv.bottomEq p hp
  rw [sectionObjAt_level, h1] at hbot
  simp only [decide_eq_true_eq]
  omega

/-- If the loop over the remaining indices returns a final store, the
invariant holds of it at the last index. -/
theorem nestLoop_inv (sections : List Section) (h1 : lvlAt sections 0 = 1) :
    ∀ (m k : Nat) (stack : List SectionObj) (store finalStore : List (List SectionObj)),
    NestInv sections k stack store →
    k + m + 1 = sections.length →
    nestLoop sections (List.range' (k + 1) m) stack store = some finalStore →
    ∃ stackF, NestInv sections (sections.length - 1) stackF finalStore := by
  intro m
  induction m with
  | zero =>
    intro k stack store finalStore inv hkm hloop
    unfold nestLoop at hloop
    cases hloop
    refine ⟨stack, ?_⟩
    have hk : k = sections.length - 1 := by omega
    rw [← hk]
    exact inv
  | succ m ih =>
    intro k stack store finalStore inv hkm hloop
    rw [List.range'_succ] at hloop
    by_cases hL : 2 ≤ lvlAt sections (k + 1)
    · obtain ⟨top, rest, hpop, _, inv'⟩ :=
        nestStep sections k stack store inv h1 (by omega) hL
      unfold nestLoop at hloop
      rw [hpop] at hloop
      exact ih (k + 1) _ _ finalStore inv' (by omega) hloop
    · have hpop0 := nestStepFail sections k stack store inv h1 (by omega)
      unfold nestLoop at hloop
      rw [hpop0] at hloop
      simp at hloop

/-- When every later section has level at least `2`, the loop never pops the
whole stack and returns a final store. -/
theorem nestLoop_some (sections : List Section) (h1 : lvlAt sections 0 = 1) :
    ∀ (m k : Nat) (stack : List SectionObj) (store : List (List SectionObj)),
    NestInv sections k stack store →
    k + m + 1 = sections.length →
    (∀ x, 1 ≤ x → x < sections.length → 2 ≤ lvlAt sections x) →
    ∃ st, nestLoop sections (List.range' (k + 1) m) stack store = some st := by
  intro m
  induction m with
  | zero =>
    intro k stack store _ _ _
    exact ⟨store, rfl⟩
  | succ m ih =>
    intro k stack store inv hkm hgood
    rw [List.range'_succ]
    have hL : 2 ≤ lvlAt sections (k + 1) := hgood (k + 1) (by omega) (by omega)
    obtain ⟨top, rest, hpop, _, inv'⟩ :=
      nestStep sections k stack store inv h1 (by omega) hL
    obtain ⟨st, hst⟩ := ih (k + 1) _ _ inv' (by omega) hgood
    refine ⟨st, ?_⟩
    unfold nestLoop
    rw [hpop]
    exact hst

/-- Success analysis of `nest_sections`: the input was non-empty with a
level-1 first section, the returned toplevel is section `0`'s object, and the
final store satisfies the invariant at the last index. -/
theorem nest_sections_inv (sections : List Section) (res : NestResult)
    (h : nest_sections sections = some res) :
    sections ≠ [] ∧ lvlAt sections 0 = 1 ∧
    res.toplevel = sectionObjAt sections 0 ∧
    ∃ stackF, NestInv sections (sections.length - 1) stackF res.store := by
  unfold nest_sections at h
  cases sections with
  | nil => exact absurd h (by simp)
  | cons s0 rest =>
    simp only [nest_sections] at h
    by_cases hlvl : s0.heading.level = 1
    · rw [if_pos hlvl] at h
      rw [Option.map_eq_some'] at h
      obtain ⟨store, hst, hres⟩ := h
      have h1 : lvlAt (s0 :: rest) 0 = 1 := hlvl
      have hlen : (s0 :: rest).length = rest.length + 1 := rfl
      obtain ⟨stackF, invF⟩ := nestLoop_inv (s0 :: rest) h1 ((s0 :: rest).length - 1) 0
        [sectionObjAt (s0 :: rest) 0] (List.replicate (s0 :: rest).length []) store
        (nestInvInit (s0 :: rest) (by simp) h1) (by simp) (by rw [hlen] at hst ⊢; simpa using hst)
      rw [← hres]
      exact ⟨by simp, h1, rfl, stackF, invF⟩
    · rw [if_neg hlvl] at h
      exact absurd h (by simp)

/-- When the first section has level `1` and every later one level at least
`2`, `nest_sections` succeeds and its store satisfies the invariant. -/
theorem nest_sections_some_inv (sections : List Section) (hne : sections ≠ [])
    (h1 : lvlAt sections 0 = 1)
    (hgood : ∀ x, 1 ≤ x → x < sections.length → 2 ≤ lvlAt sections x) :
    ∃ res, nest_sections sections = some res ∧
      res.toplevel = sectionObjAt sections 0 ∧
      ∃ stackF, NestInv sections (sections.length - 1) stackF res.store := by
  cases sections with
  | nil => exact absurd rfl hne
  | cons s0 rest =>
    have hlvl : s0.heading.level = 1 := h1
    obtain ⟨st, hst⟩ := nestLoop_some (s0 :: rest) h1 ((s0 :: rest).length - 1) 0
      [sectionObjAt (s0 :: rest) 0] (List.replicate (s0 :: rest).length [])
      (nestInvInit (s0 :: rest) (by simp) h1) (by simp) hgood
    have hres : nest_sections (s0 :: rest) = some ⟨sectionObjAt (s0 :: rest) 0, st⟩ := by
      simp only [nest_sections]
      rw [if_pos hlvl]
      have : (s0 :: rest).length - 1 = rest.length := by simp
      rw [this] at hst ⊢
      rw [hst]
      rfl
    refine ⟨⟨sectionObjAt (s0 :: rest) 0, st⟩, hres, rfl, ?_⟩
    exact nestLoop_inv (s0 :: rest) h1 ((s0 :: rest).length - 1) 0 _ _ st
      (nestInvInit (s0 :: rest) (by simp) h1) (by simp)
      (by simpa using hst)

theorem range_map_getD (l : List Section) :
    (List.range l.length).map (fun i => (l.getD i default).heading)
      = l.map Section.heading := by
  induction l with
  | nil => rfl
  | cons a t ih =>
    rw [List.length_cons, List.range_succ_eq_map, List.map_cons, List.map_map,
      List.map_cons]
    have heq : (List.range t.length).map
        ((fun i => ((a :: t).getD i default).heading) ∘ Nat.succ)
        = (List.range t.length).map (fun i => (t.getD i default).heading) :=
      List.map_congr_left (fun i _ => rfl)
    rw [heq, ih]
    rfl

/-- Claim C2: for any document, flattening the tree returned by
`nest_sections` in pre-order (node heading first, then each child subtree in
children order) yields exactly the sequence of headings of the flat section
list produced by `parse_sections` from the same document — no reordering,
duplication, or loss. -/
theorem nest_preorder_headings (doc : String) (secs : List Section)
    (res : NestResult) (hp : parse_sections doc = some secs)
    (hn : nest_sections secs = some res) :
    flattenHeadings res = secs.map Section.heading := by
  obtain ⟨hne, _, htop, stackF, inv⟩ := nest_sections_inv secs res hn
  obtain ⟨init, hdecomp⟩ := getLast?_decomp stackF _ inv.bottomEq
  have hmem : sectionObjAt secs 0 ∈ stackF := by
    rw [hdecomp]
    exact List.mem_append_right _ (List.mem_singleton.mpr rfl)
  have hflat := inv.flatEq _ hmem
  rw [sectionObjAt_ref] at hflat
  unfold flattenHeadings
  rw [htop, hflat]
  unfold sliceObjs
  have hn1 : secs.length - 1 + 1 - 0 = secs.length := by
    have := List.length_pos.mpr hne
    omega
  rw [hn1, List.map_map, ← List.range_eq_range']
  exact range_map_getD secs

/-- Witness for C2 at the two-section document `"# a\n## b"`. -/
theorem nest_preorder_headings_witness :
    parse_sections "# a\n## b"
      = some [Section.mk ⟨"a", 1⟩ [], Section.mk ⟨"b", 2⟩ []] ∧
    nest_sections [Section.mk ⟨"a", 1⟩ [], Section.mk ⟨"b", 2⟩ []]
      = some ⟨⟨⟨"a", 1⟩, [], 0⟩, [[⟨⟨"b", 2⟩, [], 1⟩], []]⟩ ∧
    flattenHeadings ⟨⟨⟨"a", 1⟩, [], 0⟩, [[⟨⟨"b", 2⟩, [], 1⟩], []]⟩
      = [Section.mk ⟨"a", 1⟩ [], Section.mk ⟨"b", 2⟩ []].map Section.heading :=
  ⟨by decide, by decide,
    nest_preorder_headings "# a\n## b" _ _ (by decide) (by decide)⟩

/-- Counterexample to claim C1's no-preceding-shallower clause: for a second
section of level 1 (the only way no preceding section has a strictly smaller
level), `nest_sections` pops the whole stack and `stack[-1]` raises
`IndexError` — no tree is produced at all, so that section does not become a
direct child of the root. -/
theorem nest_sections_second_level1_raises :
    nest_sections [Section.mk ⟨"a", 1⟩ [], Section.mk ⟨"b", 1⟩ []] = none := by
  decide

/-- Claim C1 as amended: for a flat section list whose first section has
level 1 and whose later sections all have level at least 2 (for a later
section of level 1 the builder raises instead —
`nest_sections_second_level1_raises`), `nest_sections` succeeds and every
later section `j` becomes a direct child — hence a descendant — of the
nearest preceding section whose heading level is strictly smaller (which
always exists, the root being at level 1). -/
theorem nest_child_of_nearest_smaller (sections : List Section)
    (hne : sections ≠ []) (h1 : lvlAt sections 0 = 1)
    (hgood : ∀ x, 1 ≤ x → x < sections.length → 2 ≤ lvlAt sections x)
    (j : Nat) (hj1 : 1 ≤ j) (hjn : j < sections.length) :
    ∃ res, nest_sections sections = some res ∧
      ∃ i, nearestSmaller sections j = some i ∧
        childInStore res.store i j ∧ descendantInStore res.store i j := by
  obtain ⟨res, hres, _, stackF, inv⟩ := nest_sections_some_inv sections hne h1 hgood
  obtain ⟨i, hni, hchild⟩ := inv.memNearest j hj1 (by omega)
  exact ⟨res, hres, i, hni, hchild, Relation.TransGen.single hchild⟩

/-- Witness for C1 on the list `[level 1, level 2]` at `j = 1`. -/
theorem nest_child_of_nearest_smaller_witness :
    ∃ res, nest_sections [Section.mk ⟨"a", 1⟩ [], Section.mk ⟨"b", 2⟩ []] = some res ∧
      ∃ i, nearestSmaller [Section.mk ⟨"a", 1⟩ [], Section.mk ⟨"b", 2⟩ []] 1 = some i ∧
        childInStore res.store i 1 ∧ descendantInStore res.store i 1 :=
  nest_child_of_nearest_smaller [Section.mk ⟨"a", 1⟩ [], Section.mk ⟨"b", 2⟩ []]
    (by decide) (by decide)
    (by
      intro x h1x h2x
      have hx : x = 1 := by
        simp only [List.length_cons, List.length_nil] at h2x
        omega
      subst hx
      decide)
    1 (by decide) (by decide)

/-- Claim C3 (the code contradicts it): `heading_to_renderer` returns `None`
for *every* heading, including level-2 `"חומרים"` — the lookup keys of
`_HEADING_TO_RENDER_MAPPING` are the heading texts (strings), but the
function looks the `Heading` object itself up, and a `Heading` never equals a
string, so the table can never hit.  The claim (and the table's evident
purpose) expects the Ingredients renderer for level-2 `"חומרים"`. -/
theorem heading_to_renderer_always_none (h : Heading) :
    heading_to_renderer h = none := by
  unfold heading_to_renderer
  by_cases hl : h.level ≠ 2
  · rw [if_pos hl]
  · rw [if_neg hl]
    rfl

/-- Claim C8 (the code contradicts it): running `nest_sections` on two flat
sections leaves the *input* first section's children list non-empty.  Store
entry `0` is the very list object input section `0` holds (`attrs.evolve`
shares it with the toplevel copy), and after the call it contains the copy of
section `1` instead of being empty. -/
theorem nest_sections_mutates_input :
    (nest_sections [Section.mk ⟨"a", 1⟩ [], Section.mk ⟨"b", 2⟩ []]).map
      (fun res => res.store.getD 0 [])
      = some [⟨⟨"b", 2⟩, [], 1⟩] := by
  decide

/-- Counterexample to claim C9: a line with seven `#` markers parses to a
level-7 heading and the parse/build pipeline succeeds on the document rather
than treating it as malformed. -/
theorem parse_and_nest_accepts_level7 :
    parse_and_nest "# a\n####### b"
      = some ⟨⟨⟨"a", 1⟩, [], 0⟩, [[⟨⟨"b", 7⟩, [], 1⟩], []]⟩ := by
  decide

theorem takeWhile_hashes (n : Nat) :
    (List.replicate n '#' ++ [' ', 'b']).takeWhile (fun c => c == '#')
      = List.replicate n '#' := by
  induction n with
  | zero => decide
  | succ n ih =>
    rw [List.replicate_succ, List.cons_append, List.takeWhile_cons_of_pos (by decide)]
    rw [ih]

/-- Claim C9 as amended: `parse_heading` imposes no upper bound on the
heading level — a leading run of `k ≥ 1` markers yields level `k` — and the
builder accepts such levels (for `k ≥ 2`, nesting a level-`k` section under
the level-1 root succeeds); the pipeline never reports such a document as
malformed. -/
theorem parse_heading_no_upper_bound (k : Nat) (hk : 2 ≤ k) :
    parse_heading (String.mk (List.replicate k '#' ++ [' ', 'b'])) = some ⟨"b", k⟩ ∧
    (nest_sections [Section.mk ⟨"a", 1⟩ [], Section.mk ⟨"b", k⟩ []]).isSome = true := by
  constructor
  · have hdata : (String.mk (List.replicate k '#' ++ [' ', 'b'])).data
        = List.replicate k '#' ++ [' ', 'b'] := rfl
    have hdrop := List.drop_left (List.replicate k '#') [' ', 'b']
    rw [List.length_replicate] at hdrop
    have htext : String.mk (pyStrip (List.takeWhile (fun c => c != '\n') [' ', 'b']))
        = "b" := by decide
    unfold parse_heading
    simp only [hdata, takeWhile_hashes, List.length_replicate, hdrop, htext]
    rw [if_neg (show ¬(k = 0) by omega)]
  · obtain ⟨res, hres, _⟩ := nest_sections_some_inv
      [Section.mk ⟨"a", 1⟩ [], Section.mk ⟨"b", k⟩ []] (by simp) rfl
      (by
        intro x h1x h2x
        have hx : x = 1 := by
          simp only [List.length_cons, List.length_nil] at h2x
          omega
        subst hx
        exact hk)
    rw [hres]
    rfl

/-- Witness for the amended C9 at `k = 7`. -/
theorem parse_heading_no_upper_bound_witness :
    parse_heading (String.mk (List.replicate 7 '#' ++ [' ', 'b'])) = some ⟨"b", 7⟩ ∧
    (nest_sections [Section.mk ⟨"a", 1⟩ [], Section.mk ⟨"b", 7⟩ []]).isSome = true :=
  parse_heading_no_upper_bound 7 (by decide)

/-- Claim C7: the Soup document parses to the expected recipe. -/
theorem parse_recipe_text_soup :
    parse_recipe_text
        "# Soup\nGood soup.\n## Ingredients\nWater\nSalt\n\n## Steps\nBoil water.\n\nAdd salt."
      = some ⟨"Soup", "Good soup.", ["Water", "Salt"],
          ["Boil water.", "Add salt."]⟩ := by
  decide

/-! The tree renderer: loop/recursion equivalence and traversal order. -/

theorem renderNestedSpec_eq (r : RendererTag) (h : Heading) (c : List String)
    (cs : List SectionTree) :
    renderNestedSpec r (SectionTree.mk h c cs)
      = callRenderer ((heading_to_renderer h).getD r) (SectionTree.mk h c cs) ::
        (cs.reverse.map (renderNestedSpec ((heading_to_renderer h).getD r))).flatten := by
  rw [renderNestedSpec]
  congr 1
  rw [List.attach_map_val cs.reverse (renderNestedSpec ((heading_to_renderer h).getD r))]

theorem preorderSecs_eq (h : Heading) (c : List String) (cs : List SectionTree) :
    preorderSecs (SectionTree.mk h c cs)
      = SectionTree.mk h c cs :: (cs.map preorderSecs).flatten := by
  rw [preorderSecs]
  congr 1
  rw [List.attach_map_val cs preorderSecs]

theorem renderLoop_spec :
    ∀ (stack : List (SectionTree × RendererTag)) (acc : List Fragment),
    renderLoop stack acc
      = acc ++ (stack.map (fun p => renderNestedSpec p.2 p.1)).flatten := by
  intro stack acc
  induction stack, acc using renderLoop.induct with
  | case1 acc => simp [renderLoop]
  | case2 s r rest acc r' ih =>
    rw [renderLoop]
    rw [ih]
    cases s with
    | mk h c cs =>
      rw [List.map_cons, List.flatten_cons, renderNestedSpec_eq]
      simp only [List.map_append, List.flatten_append, List.map_reverse, List.map_map]
      simp only [List.append_assoc]
      refine congrArg (fun z => acc ++ z) ?_
      refine congrArg₂ (fun u v => u :: v) rfl ?_
      exact congrArg₂ (fun u v => u ++ v) rfl rfl

/-- Counterexample to claim C4's traversal-order clause: on a root with two
children `A` then `B`, the emitted fragment sequence is root, `B`, `A` — not
the document (pre-order, left-to-right) order root, `A`, `B`: the loop pops
the last-pushed child first. -/
theorem render_nested_sections_not_document_order :
    (render_nested_sections (SectionTree.mk ⟨"r", 1⟩ []
        [SectionTree.mk ⟨"A", 2⟩ [] [],
         SectionTree.mk ⟨"B", 2⟩ [] []])).map Fragment.heading
      ≠ (preorderSecs (SectionTree.mk ⟨"r", 1⟩ []
        [SectionTree.mk ⟨"A", 2⟩ [] [],
         SectionTree.mk ⟨"B", 2⟩ [] []])).map SectionTree.heading := by
  have h1 : heading_to_renderer ⟨"r", 1⟩ = none := by decide
  have h2 : heading_to_renderer ⟨"A", 2⟩ = none := by decide
  have h3 : heading_to_renderer ⟨"B", 2⟩ = none := by decide
  have hrender : render_nested_sections (SectionTree.mk ⟨"r", 1⟩ []
      [SectionTree.mk ⟨"A", 2⟩ [] [], SectionTree.mk ⟨"B", 2⟩ [] []])
      = renderNestedSpec RendererTag.render_toplevel (SectionTree.mk ⟨"r", 1⟩ []
        [SectionTree.mk ⟨"A", 2⟩ [] [], SectionTree.mk ⟨"B", 2⟩ [] []]) := by
    unfold render_nested_sections
    rw [renderLoop_spec]
    simp
  rw [hrender]
  simp only [renderNestedSpec_eq, preorderSecs_eq, h1, h2, h3, Option.getD_none,
    List.reverse_cons, List.reverse_nil, List.nil_append, List.map_cons,
    List.map_nil, List.flatten_cons, List.flatten_nil, List.append_nil,
    List.cons_append]
  decide

/-- Claim C4 as amended: `render_nested_sections` visits the tree depth-first
in pre-order but takes each node's children in *reverse* (right-to-left)
order — the loop pushes them left-to-right and pops the last one first — so
the fragment sequence is not document order; each node still emits exactly
one fragment, under the renderer its own heading resolves to or, when that
is `None`, the renderer inherited from its nearest resolved ancestor (the
root's `render_toplevel` by default), as `renderNestedSpec` states
recursively. -/
theorem render_nested_sections_spec (t : SectionTree) :
    render_nested_sections t = renderNestedSpec RendererTag.render_toplevel t := by
  unfold render_nested_sections
  rw [renderLoop_spec]
  simp

/-! The preparation-step splitting rule. -/

theorem split_at_ne_nil (pred : String → Bool) :
    ∀ l : List String, split_at l pred ≠ [] := by
  intro l
  induction l with
  | nil => simp [split_at]
  | cons x xs ih =>
    unfold split_at
    by_cases hp : pred x = true
    · simp [hp]
    · rw [if_neg hp]
      cases hsp : split_at xs pred with
      | nil => exact absurd hsp ih
      | cons g gs => simp

theorem split_at_all_neg (pred : String → Bool) :
    ∀ b : List String, (∀ s ∈ b, pred s = false) → split_at b pred = [b] := by
  intro b
  induction b with
  | nil => intro _; rfl
  | cons x xs ih =>
    intro hb
    unfold split_at
    rw [if_neg (by rw [hb x (List.mem_cons_self _ _)]; simp)]
    rw [ih (fun s hs => hb s (List.mem_cons_of_mem _ hs))]

theorem split_at_append_sep (pred : String → Bool) (sep : String)
    (hsep : pred sep = true) :
    ∀ (b rest : List String), (∀ s ∈ b, pred s = false) →
    split_at (b ++ sep :: rest) pred = b :: split_at rest pred := by
  intro b
  induction b with
  | nil =>
    intro rest _
    show split_at (sep :: rest) pred = [] :: split_at rest pred
    conv_lhs => unfold split_at
    rw [if_pos hsep]
  | cons x xs ih =>
    intro rest hb
    show split_at (x :: (xs ++ sep :: rest)) pred = (x :: xs) :: split_at rest pred
    conv_lhs => unfold split_at
    rw [if_neg (by rw [hb x (List.mem_cons_self _ _)]; simp)]
    rw [ih rest (fun s hs => hb s (List.mem_cons_of_mem _ hs))]

/-- Counterexample to claim C5: two consecutive empty lines are two
separators, producing an empty block that is kept, so the step list contains
an empty step — empty blocks are not discarded and blank runs do not
collapse. -/
theorem render_prep_steps_keeps_empty :
    render_prep_steps ["a", "", "", "b"] = ["a", "", "b"] ∧
    "" ∈ render_prep_steps ["a", "", "", "b"] := by
  decide

/-- Claim C5 as amended: the rule splits at *every* empty line and keeps all
blocks, empty ones included.  For content made of blocks of non-empty lines
joined by single blank lines it yields exactly those blocks (joined with a
line break) as steps in order; consecutive, leading or trailing blank lines
instead contribute empty steps that are not discarded
(`render_prep_steps_keeps_empty`). -/
theorem render_prep_steps_blocks (blocks : List (List String))
    (hne : blocks ≠ []) (hb : ∀ b ∈ blocks, ∀ s ∈ b, s ≠ "") :
    render_prep_steps (List.intercalate [""] blocks)
      = blocks.map (fun b => String.intercalate "\n" b) := by
  induction blocks with
  | nil => exact absurd rfl hne
  | cons b bs ih =>
    cases bs with
    | nil =>
      unfold render_prep_steps
      have hinter : List.intercalate [""] [b] = b := by
        unfold List.intercalate
        simp
      rw [hinter, split_at_all_neg _ b
        (fun s hs => by
          have := hb b (List.mem_cons_self _ _) s hs
          simpa using this)]
    | cons b2 bs' =>
      have hinter : List.intercalate [""] (b :: b2 :: bs')
          = b ++ "" :: List.intercalate [""] (b2 :: bs') := by
        unfold List.intercalate
        rw [List.intersperse_cons_cons]
        simp
      unfold render_prep_steps
      rw [hinter, split_at_append_sep (fun s => s == "") "" (by decide) b
        (List.intercalate [""] (b2 :: bs'))
        (fun s hs => by
          have := hb b (List.mem_cons_self _ _) s hs
          simpa using this)]
      rw [List.map_cons]
      have ihh := ih (by simp)
        (fun b' hb' s hs => hb b' (List.mem_cons_of_mem _ hb') s hs)
      unfold render_prep_steps at ihh
      rw [ihh, List.map_cons]
      simp

/-- Witness for the amended C5 on two one-line blocks. -/
theorem render_prep_steps_blocks_witness :
    render_prep_steps (List.intercalate [""] [["a"], ["b"]])
      = [["a"], ["b"]].map (fun b => String.intercalate "\n" b) :=
  render_prep_steps_blocks [["a"], ["b"]] (by decide)
    (by
      intro b hbm s hs
      fin_cases hbm <;> simp_all)

/-! Malformed first line: the pipeline fails instead of building a tree. -/

theorem splitBeforeGo_first (pred : Line → Bool) :
    ∀ (l buf : List Line), buf ≠ [] →
    ∃ t gs, splitBeforeGo pred buf l = (buf ++ t) :: gs := by
  intro l
  induction l with
  | nil =>
    intro buf hbuf
    refine ⟨[], [], ?_⟩
    unfold splitBeforeGo
    rw [if_neg (by simpa using hbuf), List.append_nil]
  | cons x xs ih =>
    intro buf hbuf
    unfold splitBeforeGo
    by_cases hp : (pred x && !buf.isEmpty) = true
    · rw [if_pos hp]
      exact ⟨[], splitBeforeGo pred [x] xs, by rw [List.append_nil]⟩
    · rw [if_neg hp]
      obtain ⟨t, gs, h⟩ := ih (buf ++ [x]) (by simp)
      exact ⟨[x] ++ t, gs, by rw [h, List.append_assoc]⟩

/-- Claim C6: for every document whose first classified line is not a
level-1 heading — a plain-text first line, a heading of another level, or an
empty document — the parse/build pipeline fails (an assert raises) and never
produces a tree, in particular never a synthetic root. -/
theorem pipeline_rejects_bad_first (doc : String)
    (hbad : firstIsLevel1Heading ((splitlines doc).map parse_line) = false) :
    parse_and_nest doc = none := by
  unfold parse_and_nest parse_sections
  cases hlines : (splitlines doc).map parse_line with
  | nil => rfl
  | cons x xs =>
    rw [hlines] at hbad
    have hstep : split_before (x :: xs) isHeading = splitBeforeGo isHeading [x] xs := by
      unfold split_before
      conv_lhs => unfold splitBeforeGo
      rw [if_neg (by simp)]
      rw [List.nil_append]
    rw [hstep]
    obtain ⟨t, gs, hsplit⟩ := splitBeforeGo_first isHeading xs [x] (by simp)
    rw [hsplit]
    simp only [List.cons_append, List.nil_append]
    cases x with
    | str s => simp [sectionsFromGroups, Section.from_lines]
    | heading h =>
      have hlvl : ¬(h.level = 1) := by
        unfold firstIsLevel1Heading at hbad
        simp only [List.head?_cons] at hbad
        simpa using hbad
      simp only [sectionsFromGroups, Section.from_lines]
      cases hc : contentStrings t with
      | none => simp [hc]
      | some c =>
        cases hgs : sectionsFromGroups gs with
        | none => simp [hc, hgs]
        | some rest =>
          simp only [hc, hgs, Option.map_some', Option.bind_some, Option.some_bind]
          show nest_sections (Section.mk h c :: rest) = none
          simp only [nest_sections]
          rw [if_neg hlvl]

/-- Witness for C6 on the document `"hello"`. -/
theorem pipeline_rejects_bad_first_witness :
    firstIsLevel1Heading ((splitlines "hello").map parse_line) = false ∧
    parse_and_nest "hello" = none :=
  ⟨by decide, pipeline_rejects_bad_first "hello" (by decide)⟩

end SeferBishul
